import Mathlib

/-!
Verification development for the recruitment-report field normalizer and
classifier (source file app.py).  The Python functions clean_key,
format_excel_date and parse_json_data are shallowly embedded as executable
Lean definitions over a JSON value type; the claims about the component are
then stated and settled as theorems below.

Modelling conventions: JSON numeric literals are modelled as integers (all
claims involve only integral values); Python exceptions escaping a helper
are modelled by Option, with none meaning the surrounding try/except of
parse_json_data catches the exception and returns the failure signal.
-/

/-- Claim-independent JSON value type: the values produced by json.loads. -/
inductive JsonVal : Type where
  | null : JsonVal
  | bool (b : Bool) : JsonVal
  | num (n : Int) : JsonVal
  | str (s : String) : JsonVal
  | arr (items : List JsonVal) : JsonVal
  | obj (fields : List (String × JsonVal)) : JsonVal

/-- One question/answer pair as produced by parse_json_data. -/
structure QAPair : Type where
  question : String
  answer : String
deriving DecidableEq

/-! ## Generic character-list machinery (Python string primitives) -/

/-- Model of stripping a literal pattern from the front of a list:
some r exactly when the list is p followed by r. -/
def stripPre : List Char → List Char → Option (List Char)
  | [], s => some s
  | _ :: _, [] => none
  | a :: p, b :: s => if a = b then stripPre p s else none

/-- Does s start with pattern p. -/
def startsList (p s : List Char) : Bool := (stripPre p s).isSome

/-- Model of the Python substring test (p in s). -/
def containsSub (p : List Char) : List Char → Bool
  | [] => p.isEmpty
  | a :: t => startsList p (a :: t) || containsSub p t

/-- Fueled worker for left-to-right replace-all; with fuel at least the
length of the input it is the Python str.replace semantics. -/
def pyRepAux (p c : List Char) : Nat → List Char → List Char
  | 0, s => s
  | _ + 1, [] => []
  | f + 1, a :: t =>
    match stripPre p (a :: t) with
    | some rest => c ++ pyRepAux p c f rest
    | none => a :: pyRepAux p c f t

/-- Model of Python str.replace (replace all occurrences, left to right). -/
def pyReplace (p c s : List Char) : List Char := pyRepAux p c s.length s

/-- Whitespace stripped by Python str.strip with no argument
(ASCII portion, which covers every key the component handles). -/
def isPySpace (c : Char) : Bool :=
  c == ' ' || c == '\t' || c == '\n' || c == '\r' || c == '\x0b' || c == '\x0c'

/-- Drop the longest whitespace suffix (helper for str.strip). -/
def dropWhileEndC : List Char → List Char
  | [] => []
  | a :: t =>
    let r := dropWhileEndC t
    if r.isEmpty && isPySpace a then [] else a :: r

/-- Model of Python str.strip with no argument. -/
def pyStripL (l : List Char) : List Char :=
  dropWhileEndC (List.dropWhile isPySpace l)

/-! ## Decimal printing (Python str of an integer) -/

/-- Fueled digit printer for naturals, most significant digit first. -/
def natStrAux : Nat → Nat → List Char
  | 0, _ => []
  | f + 1, n => if n < 10 then [Nat.digitChar n] else natStrAux f (n / 10) ++ [Nat.digitChar (n % 10)]

/-- Decimal string of a natural number. -/
def natStr (n : Nat) : String := String.mk (natStrAux (n + 1) n)

/-- Decimal string of an integer (Python str of an int). -/
def intStr : Int → String
  | .ofNat m => natStr m
  | .negSucc m => "-" ++ natStr (m + 1)

/-! ## Python str and truthiness on JSON values -/

mutual

/-- Python repr of a JSON-derived value (used inside containers). -/
def pyRepr : JsonVal → String
  | .null => "None"
  | .bool true => "True"
  | .bool false => "False"
  | .num n => intStr n
  | .str s => "\x27" ++ s ++ "\x27"
  | .arr l => "[" ++ pyReprL l ++ "]"
  | .obj l => "\x7b" ++ pyReprO l ++ "\x7d"

/-- Python repr of a list of values, comma separated. -/
def pyReprL : List JsonVal → String
  | [] => ""
  | [x] => pyRepr x
  | x :: y :: t => pyRepr x ++ ", " ++ pyReprL (y :: t)

/-- Python repr of a string-keyed mapping, comma separated. -/
def pyReprO : List (String × JsonVal) → String
  | [] => ""
  | [kv] => "\x27" ++ kv.1 ++ "\x27: " ++ pyRepr kv.2
  | kv :: kv2 :: t => "\x27" ++ kv.1 ++ "\x27: " ++ pyRepr kv.2 ++ ", " ++ pyReprO (kv2 :: t)
end

/-- Python str applied to a JSON-derived value. -/
def pyStr (v : JsonVal) : String :=
  match v with
  | .str s => s
  | .null => "None"
  | .bool true => "True"
  | .bool false => "False"
  | .num n => intStr n
  | .arr l => pyRepr (.arr l)
  | .obj l => pyRepr (.obj l)

/-- Python truthiness of a JSON-derived value. -/
def truthy : JsonVal → Bool
  | .null => false
  | .bool b => b
  | .num n => !(n == 0)
  | .str s => !(s == "")
  | .arr l => !l.isEmpty
  | .obj l => !l.isEmpty

/-! ## Embedding of clean_key (app.py lines 17-31) -/

/-- Lowercasing a string, Python str.lower on the ASCII range. -/
def lowerStr (s : String) : String := String.mk (s.data.map Char.toLower)

/-- The three SharePoint/Excel placeholder decodings of clean_key, in
source order: _x002e_ to period, _x003a_ to colon, _x0023_ to hash. -/
def decodeKey (l : List Char) : List Char :=
  pyReplace ("_x0023_".data) ("#".data)
    (pyReplace ("_x003a_".data) (":".data)
      (pyReplace ("_x002e_".data) (".".data) l))

/-- Embedding of clean_key: decode placeholders, collapse versioned URL
fields to their canonical names, otherwise strip whitespace. -/
def clean_key (key : String) : String :=
  let l := decodeKey key.data
  if containsSub ("LinkedIn Profile URL".data) l then "LinkedIn Profile URL"
  else if containsSub ("Portfolio URL".data) l then "Portfolio URL"
  else String.mk (pyStripL l)

/-! ## Embedding of the configuration lists (app.py lines 10-15 and 84) -/

/-- The BIO_FIELDS configuration list, verbatim from the source. -/
def BIO_FIELDS : List String :=
  ["ID", "ItemInternalId", "Start time", "Completion time", "Email", "Email1", "Name",
   "First & Last Name", "LinkedIn Profile URL", "Portfolio URL",
   "Position Type", "Degree", "Graduation Year",
   "Preferred Start Date", "Preferred Start Date1", "Submission Time"]

/-- The case-insensitive biographical check of parse_json_data line 82. -/
def bioMatch (ck : String) : Bool :=
  BIO_FIELDS.any (fun bioKey => lowerStr bioKey == lowerStr ck)

/-- The date-valued field list of parse_json_data line 84, verbatim. -/
def dateFields : List String :=
  ["Completion time", "Start time", "Submission Time", "Preferred Start Date", "Preferred Start Date1"]

/-- The key.startswith at-sign test of parse_json_data line 75. -/
def isAtKey (k : String) : Bool :=
  match k.data with
  | [] => false
  | c :: _ => c == '@'

/-! ## Embedding of format_excel_date (app.py lines 33-47) -/

/-- Proleptic Gregorian civil date from a count of days since 1970-01-01
(the standard era-based conversion used by calendar libraries). -/
def civilFromDays (z0 : Int) : Int × Nat × Nat :=
  let z : Int := z0 + 719468
  let era : Int := z.fdiv 146097
  let doe : Nat := (z - era * 146097).toNat
  let yoe : Nat := (doe - doe / 1460 + doe / 36524 - doe / 146096) / 365
  let y : Int := (yoe : Int) + era * 400
  let doy : Nat := doe - (365 * yoe + yoe / 4 - yoe / 100)
  let mp : Nat := (5 * doy + 2) / 153
  let d : Nat := doy - (153 * mp + 2) / 5 + 1
  let m : Nat := if mp < 10 then mp + 3 else mp - 9
  (y + (if m ≤ 2 then 1 else 0), m, d)

/-- English month names for strftime percent-B. -/
def monthName (m : Nat) : String :=
  (["January", "February", "March", "April", "May", "June", "July",
    "August", "September", "October", "November", "December"]).getD (m - 1) ""

/-- Zero-padded two-digit day for strftime percent-d. -/
def pad2 (d : Nat) : String := if d < 10 then "0" ++ natStr d else natStr d

/-- The datetime computation of format_excel_date: epoch 1899-12-30 plus
the serial, rendered as strftime percent-B percent-d, percent-Y.  Returns
none when the resulting date falls outside the Python datetime year range
1 to 9999, where datetime addition raises OverflowError. -/
def formatDateSerial (n : Int) : Option String :=
  let c := civilFromDays (n - 25569)
  if 1 ≤ c.1 ∧ c.1 ≤ 9999 then
    some (monthName c.2.1 ++ " " ++ pad2 c.2.2 ++ ", " ++ intStr c.1)
  else none

/-- Take the longest digit run from the front of a list. -/
def spanDigits : List Char → List Char × List Char
  | [] => ([], [])
  | c :: t =>
    if '0' ≤ c && c ≤ '9' then
      let p := spanDigits t
      (c :: p.1, p.2)
    else ([], c :: t)

/-- Numeric value of a digit run. -/
def digitsToNat (l : List Char) : Nat :=
  l.foldl (fun a c => a * 10 + (c.toNat - 48)) 0

/-- Result of the Python float() call on a string: a finite value, kept
as the floor of its exact decimal value (the whole-day granularity the
date rendering observes), an infinity, or a NaN; none models ValueError
raised by float() itself. -/
inductive PyFloatVal : Type where
  | finite (n : Int) : PyFloatVal
  | infinite : PyFloatVal
  | nan : PyFloatVal
deriving DecidableEq

/-- Maximal run of decimal digits and underscores. -/
def spanDigitsU : List Char → List Char × List Char
  | [] => ([], [])
  | c :: t =>
    if ('0' ≤ c && c ≤ '9') || c == '_' then
      let p := spanDigitsU t
      (c :: p.1, p.2)
    else ([], c :: t)

/-- PEP 515 placement check for a digit-and-underscore run whose head is
a digit: an underscore is never trailing and never doubled, so it always
separates two digits. -/
def groupOk : List Char → Bool
  | [] => true
  | ['_'] => false
  | [_] => true
  | '_' :: '_' :: _ => false
  | _ :: b :: t => groupOk (b :: t)

/-- One digit group of a Python numeric literal, underscores allowed
between digits only; returns the digits with underscores removed.  An
empty group is legal here, the caller decides whether digits are
required. -/
def digitGroup (s : List Char) : Option (List Char × List Char) :=
  let p := spanDigitsU s
  match p.1 with
  | [] => some ([], p.2)
  | '_' :: _ => none
  | _ => if groupOk p.1 then some (p.1.filter (fun c => !(c == '_')), p.2) else none

/-- Exponent part of a float literal after the e marker: an optional
sign then a digit group that must end the literal. -/
def parseExp (r : List Char) : Option Int :=
  let signSplit : Bool × List Char :=
    match r with
    | '-' :: r2 => (true, r2)
    | '+' :: r2 => (false, r2)
    | _ => (false, r)
  match digitGroup signSplit.2 with
  | some (ds, rest) =>
    if ds.isEmpty || !rest.isEmpty then none
    else some (if signSplit.1 then -(digitsToNat ds : Int) else (digitsToNat ds : Int))
  | none => none

/-- Floor of the exact decimal value: sign times the digit string times
ten to the exponent minus the fraction length.  Magnitudes beyond the
double range collapse to infinity; both that case and a finite value of
such size overflow the datetime range identically, so the collapse is
observationally neutral in format_excel_date. -/
def decFloor (neg : Bool) (mdigits : List Char) (fracLen : Nat) (ex : Int) : PyFloatVal :=
  let mval : Nat := digitsToNat mdigits
  let e : Int := ex - (fracLen : Int)
  if mval = 0 then .finite 0
  else if 0 ≤ e then
    if 330 < (mdigits.length : Int) + e then .infinite
    else
      let v : Nat := mval * 10 ^ e.toNat
      .finite (if neg then -(v : Int) else (v : Int))
  else
    let k : Nat := min (-e).toNat (mdigits.length + 1)
    let q : Nat := mval / 10 ^ k
    if neg then .finite (-((q + (if mval % 10 ^ k = 0 then 0 else 1) : Nat) : Int))
    else .finite (q : Int)

/-- Model of the Python float() call on a string: after whitespace
stripping and an optional sign, either the words inf, infinity or nan
case-insensitively, or a decimal literal with optional fraction part,
optional exponent part, and PEP 515 underscores between digits; none
models ValueError.  The finite value is the floor of the exact decimal:
binary double rounding and the microsecond quantization of timedelta
sit far below the one-day granularity the program renders, and diverge
only at representation boundaries, which are outside the model.  The
sign of an infinity is dropped (both overflow identically), and the
non-ASCII Unicode digits and spaces that CPython additionally accepts
are outside the model. -/
def pyFloat (s : String) : Option PyFloatVal :=
  let t := pyStripL s.data
  let signSplit : Bool × List Char :=
    match t with
    | '-' :: r => (true, r)
    | '+' :: r => (false, r)
    | _ => (false, t)
  let low := signSplit.2.map Char.toLower
  if low = "inf".data ∨ low = "infinity".data then some .infinite
  else if low = "nan".data then some .nan
  else
    match digitGroup signSplit.2 with
    | none => none
    | some (d1, t2) =>
      match (match t2 with | '.' :: r => digitGroup r | _ => some ([], t2)) with
      | none => none
      | some (d2, t3) =>
        if d1.isEmpty && d2.isEmpty then none
        else
          match t3 with
          | [] => some (decFloor signSplit.1 (d1 ++ d2) d2.length 0)
          | 'e' :: r => (parseExp r).map (decFloor signSplit.1 (d1 ++ d2) d2.length)
          | 'E' :: r => (parseExp r).map (decFloor signSplit.1 (d1 ++ d2) d2.length)
          | _ => none

/-- Embedding of format_excel_date.  A falsy serial gives the literal
N/A; a numeric serial (or numeric string, or boolean) is converted from
the 1899-12-30 epoch and formatted; a string float() rejects is returned
unchanged (the caught ValueError path), and so is a NaN string, because
the timedelta conversion of NaN raises ValueError which the same handler
catches; none models an exception escaping the function (TypeError on
containers, OverflowError on infinities and out-of-range dates), which
the caller surfaces as total failure. -/
def format_excel_date (serial : JsonVal) : Option JsonVal :=
  if truthy serial then
    match serial with
    | .num n => (formatDateSerial n).map JsonVal.str
    | .bool _ => (formatDateSerial 1).map JsonVal.str
    | .str s =>
      match pyFloat s with
      | some (.finite x) => (formatDateSerial x).map JsonVal.str
      | some .infinite => none
      | some .nan => some (.str s)
      | none => some (.str s)
    | _ => none
  else some (.str "N/A")

/-! ## Embedding of parse_json_data (app.py lines 49-97) -/

/-- Python dict assignment on an insertion-ordered association list:
an existing key keeps its position and takes the new value, a new key
is appended. -/
def insertUpd (k : String) (v : JsonVal) : List (String × JsonVal) → List (String × JsonVal)
  | [] => [(k, v)]
  | (k0, v0) :: t => if k0 = k then (k0, v) :: t else (k0, v0) :: insertUpd k v t

/-- Key membership in the metadata mapping. -/
def containsK (m : List (String × JsonVal)) (x : String) : Bool :=
  m.any (fun e => e.1 == x)

/-- The field loop of parse_json_data (lines 73-92): skip at-keys, clean
the key, route biographical fields into metadata (date fields through
format_excel_date), and append truthy question fields to the Q and A
list; none models an exception escaping the loop. -/
def processFields :
    List (String × JsonVal) → List (String × JsonVal) → List QAPair →
    Option (List (String × JsonVal) × List QAPair)
  | [], metadata, qa_list => some (metadata, qa_list)
  | (k, v) :: rest, metadata, qa_list =>
    if isAtKey k then processFields rest metadata qa_list
    else
      if bioMatch (clean_key k) then
        if dateFields.contains (clean_key k) then
          match format_excel_date v with
          | some fv => processFields rest (insertUpd (clean_key k) fv metadata) qa_list
          | none => none
        else processFields rest (insertUpd (clean_key k) v metadata) qa_list
      else if truthy v then
        processFields rest metadata (qa_list ++ [⟨clean_key k, pyStr v⟩])
      else processFields rest metadata qa_list

/-! ## JSON parsing (json.loads as invoked on line 58) -/

/-- JSON insignificant whitespace. -/
def isWsChar (c : Char) : Bool :=
  c == ' ' || c == '\t' || c == '\n' || c == '\r'

/-- Skip insignificant whitespace. -/
def skipWs : List Char → List Char
  | [] => []
  | c :: t => if isWsChar c then skipWs t else c :: t

/-- Value of one hexadecimal digit. -/
def hexVal (c : Char) : Option Nat :=
  if '0' ≤ c ∧ c ≤ '9' then some (c.toNat - 48)
  else if 'a' ≤ c ∧ c ≤ 'f' then some (c.toNat - 87)
  else if 'A' ≤ c ∧ c ≤ 'F' then some (c.toNat - 55)
  else none

/-- JSON string body scanner (after the opening quote), handling the
standard escapes; strict mode, so unescaped control characters are
rejected. -/
def parseStrAux : List Char → List Char → Option (String × List Char)
  | _, [] => none
  | acc, '"' :: r => some (String.mk acc.reverse, r)
  | acc, '\\' :: r =>
    match r with
    | '"' :: r2 => parseStrAux ('"' :: acc) r2
    | '\\' :: r2 => parseStrAux ('\\' :: acc) r2
    | '/' :: r2 => parseStrAux ('/' :: acc) r2
    | 'b' :: r2 => parseStrAux ('\x08' :: acc) r2
    | 'f' :: r2 => parseStrAux ('\x0c' :: acc) r2
    | 'n' :: r2 => parseStrAux ('\n' :: acc) r2
    | 'r' :: r2 => parseStrAux ('\r' :: acc) r2
    | 't' :: r2 => parseStrAux ('\t' :: acc) r2
    | 'u' :: h1 :: h2 :: h3 :: h4 :: r2 =>
      match hexVal h1, hexVal h2, hexVal h3, hexVal h4 with
      | some a, some b, some c, some d =>
        let n := ((a * 16 + b) * 16 + c) * 16 + d
        if h : n < 0xd800 then parseStrAux (Char.ofNatAux n (by omega) :: acc) r2
        else none
      | _, _, _, _ => none
    | _ => none
  | acc, c :: r => if c.toNat < 32 then none else parseStrAux (c :: acc) r

/-- JSON integer literal (numbers are modelled as integers; a fractional
or exponent part is outside the model). -/
def parseNumFrom (s : List Char) : Option (JsonVal × List Char) :=
  let core : List Char → Option (Nat × List Char) := fun u =>
    match spanDigits u with
    | ([], _) => none
    | ('0' :: _ :: _, _) => none
    | (ds, r) =>
      match r with
      | '.' :: _ => none
      | 'e' :: _ => none
      | 'E' :: _ => none
      | _ => some (digitsToNat ds, r)
  match s with
  | '-' :: r => (core r).map (fun p => (JsonVal.num (-(p.1 : Int)), p.2))
  | _ => (core s).map (fun p => (JsonVal.num (p.1 : Int), p.2))

/-- Parser mode: a value, the tail of an array after the opening bracket,
or the tail of an object after the opening brace. -/
inductive PMode : Type where
  | value : PMode
  | arrTail (acc : List JsonVal) : PMode
  | objTail (acc : List (String × JsonVal)) : PMode

/-- Fueled recursive-descent JSON parser; duplicate object keys follow
Python dict semantics (first position, last value). -/
def parseF : Nat → PMode → List Char → Option (JsonVal × List Char)
  | 0, _, _ => none
  | n + 1, PMode.value, s =>
    match skipWs s with
    | [] => none
    | 'n' :: 'u' :: 'l' :: 'l' :: r => some (.null, r)
    | 't' :: 'r' :: 'u' :: 'e' :: r => some (.bool true, r)
    | 'f' :: 'a' :: 'l' :: 's' :: 'e' :: r => some (.bool false, r)
    | '"' :: r => (parseStrAux [] r).map (fun p => (.str p.1, p.2))
    | '[' :: r =>
      (match skipWs r with
       | ']' :: r2 => some (.arr [], r2)
       | _ => parseF n (.arrTail []) r)
    | '\x7b' :: r =>
      (match skipWs r with
       | '\x7d' :: r2 => some (.obj [], r2)
       | _ => parseF n (.objTail []) r)
    | c :: r =>
      if c == '-' || ('0' ≤ c && c ≤ '9') then parseNumFrom (c :: r) else none
  | n + 1, PMode.arrTail acc, s =>
    match parseF n .value s with
    | none => none
    | some (v, r) =>
      match skipWs r with
      | ',' :: r2 => parseF n (.arrTail (acc ++ [v])) r2
      | ']' :: r2 => some (.arr (acc ++ [v]), r2)
      | _ => none
  | n + 1, PMode.objTail acc, s =>
    match skipWs s with
    | '"' :: r =>
      match parseStrAux [] r with
      | none => none
      | some (key, r2) =>
        match skipWs r2 with
        | ':' :: r3 =>
          match parseF n .value r3 with
          | none => none
          | some (v, r4) =>
            match skipWs r4 with
            | ',' :: r5 => parseF n (.objTail (insertUpd key v acc)) r5
            | '\x7d' :: r5 => some (.obj (insertUpd key v acc), r5)
            | _ => none
        | _ => none
    | _ => none

/-- Model of json.loads: parse one value and require only whitespace
after it; none models a raised JSONDecodeError. -/
def jsonLoads (text : String) : Option JsonVal :=
  match parseF (2 * text.data.length + 2) .value text.data with
  | some (v, r) => if (skipWs r).isEmpty then some v else none
  | none => none

/-- The record extraction of parse_json_data lines 61-67: a nonempty
top-level list yields its first element; a dict with a value key yields
the first element of that collection when indexing succeeds (a nonempty
string indexes to its first character); anything else is the explicit
else branch or an exception, both yielding the failure signal. -/
def extractRecord : JsonVal → Option JsonVal
  | .arr (x :: _) => some x
  | .obj fields =>
    (match List.lookup "value" fields with
     | some (.arr (x :: _)) => some x
     | some (.str s) =>
       (match s.data with
        | c :: _ => some (.str (String.mk [c]))
        | [] => none)
     | _ => none)
  | _ => none

/-- Embedding of parse_json_data: parse the text, extract the candidate
record, require it to be a mapping (the items() call), and run the field
loop; none is the (None, None) failure signal. -/
def parse_json_data (json_content : String) :
    Option (List (String × JsonVal) × List QAPair) :=
  match jsonLoads json_content with
  | none => none
  | some data =>
    match extractRecord data with
    | some (.obj fields) => processFields fields [] []
    | _ => none

/-- The question-and-answer entries a record gives rise to, written as a
direct filter of the record in source order (used to state the order and
drop guarantees). -/
def qaOf (fs : List (String × JsonVal)) : List QAPair :=
  fs.filterMap (fun kv =>
    if isAtKey kv.1 = false ∧ bioMatch (clean_key kv.1) = false ∧ truthy kv.2 = true then
      some ⟨clean_key kv.1, pyStr kv.2⟩
    else none)

/-! ## Claim theorems -/

/-- Claim C1 counterexample: applied to serial 0 the formatter returns
the literal N/A, not December 30, 1899 — zero is falsy in Python, so the
null-or-empty guard captures it before any date conversion. -/
theorem c1_serial_zero_cex :
    format_excel_date (.num 0) = some (.str "N/A") ∧
    ¬ format_excel_date (.num 0) = some (.str "December 30, 1899") := by
  constructor
  · rfl
  · intro h
    simp only [format_excel_date, truthy] at h
    simp at h

/-- Claim C1 as amended: serial 1 gives December 31, 1899; serial 0 is
falsy and therefore gives the literal N/A (while the truthy string "0"
does format to the epoch December 30, 1899); a null or empty value gives
N/A; a value that cannot be read as a number is returned unchanged. -/
theorem c1_date_reference_cases :
    format_excel_date (.num 1) = some (.str "December 31, 1899") ∧
    format_excel_date (.num 0) = some (.str "N/A") ∧
    format_excel_date (.str "0") = some (.str "December 30, 1899") ∧
    format_excel_date .null = some (.str "N/A") ∧
    format_excel_date (.str "") = some (.str "N/A") ∧
    format_excel_date (.str "not-a-number") = some (.str "not-a-number") :=
  ⟨rfl, rfl, rfl, rfl, rfl, rfl⟩

/-- Claim C7: the raw keys LinkedIn Profile URL and LinkedIn Profile URL2
both clean to the canonical LinkedIn Profile URL (likewise the Portfolio
URL variants), and when both appear in one record the last-processed
value overwrites the earlier one in the metadata, in either order. -/
theorem c7_versioned_url_collapse :
    clean_key "LinkedIn Profile URL" = "LinkedIn Profile URL" ∧
    clean_key "LinkedIn Profile URL2" = "LinkedIn Profile URL" ∧
    clean_key "Portfolio URL" = "Portfolio URL" ∧
    clean_key "Portfolio URL2" = "Portfolio URL" ∧
    processFields
      [("LinkedIn Profile URL", .str "a"), ("LinkedIn Profile URL2", .str "b")] [] [] =
      some ([("LinkedIn Profile URL", .str "b")], []) ∧
    processFields
      [("LinkedIn Profile URL2", .str "b"), ("LinkedIn Profile URL", .str "a")] [] [] =
      some ([("LinkedIn Profile URL", .str "a")], []) :=
  ⟨rfl, rfl, rfl, rfl, rfl, rfl⟩

/-- Claim C10: a successfully extracted record with no routable fields is
a success, not a failure: the input consisting of one empty record yields
the empty metadata mapping and empty question list, and so does any
record all of whose keys start with the at sign. -/
theorem c10_empty_record_success :
    parse_json_data "[\x7b\x7d]" = some ([], []) ∧
    parse_json_data "[\x7b\"@odata.etag\":\"x\"\x7d]" = some ([], []) ∧
    (∀ fs : List (String × JsonVal), (∀ kv ∈ fs, isAtKey kv.1 = true) →
      processFields fs [] [] = some ([], [])) := by
  refine ⟨rfl, rfl, ?_⟩
  intro fs h
  induction fs with
  | nil => rfl
  | cons kv rest ih =>
    have hat : isAtKey kv.1 = true := h kv (List.mem_cons_self kv rest)
    obtain ⟨k, v⟩ := kv
    simp only [processFields, hat, if_true]
    exact ih (fun e he => h e (List.mem_cons_of_mem _ he))

/-- Claim C3: extraction failure is all-or-nothing: when the text is not
valid JSON, or parses but no record can be extracted, or the extracted
candidate is not a mapping, the transform returns the failure signal and
no partial output; the reference inputs behave as specified: the empty
array and non-JSON text fail, and the one-record input produces exactly
the Name metadata and the single question pair. -/
theorem c3_all_or_nothing_extraction :
    (∀ text : String, jsonLoads text = none → parse_json_data text = none) ∧
    (∀ text : String, ∀ d, jsonLoads text = some d → extractRecord d = none →
      parse_json_data text = none) ∧
    (∀ text : String, ∀ d c, jsonLoads text = some d → extractRecord d = some c →
      (∀ fs, ¬ c = JsonVal.obj fs) → parse_json_data text = none) ∧
    parse_json_data "[]" = none ∧
    parse_json_data "not json" = none ∧
    parse_json_data "[\x7b\"Name\":\"A\",\"Q1\":\"yes\"\x7d]" =
      some ([("Name", .str "A")], [⟨"Q1", "yes"⟩]) := by
  refine ⟨?_, ?_, ?_, rfl, rfl, rfl⟩
  · intro text h
    simp only [parse_json_data, h]
  · intro text d h he
    simp only [parse_json_data, h, he]
  · intro text d c h he hno
    simp only [parse_json_data, h, he]
    cases c with
    | obj fs => exact absurd rfl (hno fs)
    | null => rfl
    | bool b => rfl
    | num n => rfl
    | str s => rfl
    | arr l => rfl

/-! ## Helper lemmas about the field loop -/

/-- Dict assignment characterizes key membership: the updated mapping has
the keys of the old one plus the assigned key. -/
theorem containsK_insertUpd (k : String) (v : JsonVal) (m : List (String × JsonVal))
    (x : String) : containsK (insertUpd k v m) x = (containsK m x || (k == x)) := by
  induction m with
  | nil => simp [insertUpd, containsK]
  | cons e t ih =>
    obtain ⟨k0, v0⟩ := e
    by_cases hk : k0 = k
    · subst hk
      simp [insertUpd, containsK, List.any_cons, Bool.or_assoc, Bool.or_comm, Bool.or_left_comm]
    · simp only [insertUpd, if_neg hk, containsK, List.any_cons] at *
      rw [ih, Bool.or_assoc]

/-- The question list built by the loop is the input list followed by the
direct filter of the record. -/
theorem processFields_qa :
    ∀ (fs m : List (String × JsonVal)) (qa : List QAPair) M Q,
      processFields fs m qa = some (M, Q) → Q = qa ++ qaOf fs := by
  intro fs
  induction fs with
  | nil =>
    intro m qa M Q h
    cases h
    simp [qaOf]
  | cons kv rest ih =>
    obtain ⟨k, v⟩ := kv
    intro m qa M Q h
    simp only [processFields] at h
    by_cases hat : isAtKey k = true
    · simp only [hat, if_true] at h
      simpa [qaOf, List.filterMap_cons, hat] using ih _ _ _ _ h
    · rw [Bool.not_eq_true] at hat
      simp only [hat, Bool.false_eq_true, if_false] at h
      by_cases hbio : bioMatch (clean_key k) = true
      · simp only [hbio, if_true] at h
        by_cases hdf : dateFields.contains (clean_key k) = true
        · simp only [hdf, if_true] at h
          cases hfmt : format_excel_date v with
          | none => rw [hfmt] at h; cases h
          | some fv =>
            rw [hfmt] at h
            simpa [qaOf, List.filterMap_cons, hbio] using ih _ _ _ _ h
        · rw [Bool.not_eq_true] at hdf
          simp only [hdf, Bool.false_eq_true, if_false] at h
          simpa [qaOf, List.filterMap_cons, hbio] using ih _ _ _ _ h
      · rw [Bool.not_eq_true] at hbio
        simp only [hbio, Bool.false_eq_true, if_false] at h
        by_cases htr : truthy v = true
        · simp only [htr, if_true] at h
          have hq := ih _ _ _ _ h
          simp [qaOf, List.filterMap_cons, hat, hbio, htr, hq]
        · rw [Bool.not_eq_true] at htr
          simp only [htr, Bool.false_eq_true, if_false] at h
          simpa [qaOf, List.filterMap_cons, htr] using ih _ _ _ _ h

/-- Keys present in the metadata input survive the loop. -/
theorem processFields_meta_mono :
    ∀ (fs m : List (String × JsonVal)) (qa : List QAPair) M Q,
      processFields fs m qa = some (M, Q) →
      ∀ x, containsK m x = true → containsK M x = true := by
  intro fs
  induction fs with
  | nil =>
    intro m qa M Q h x hx
    cases h
    exact hx
  | cons kv rest ih =>
    obtain ⟨k, v⟩ := kv
    intro m qa M Q h x hx
    simp only [processFields] at h
    by_cases hat : isAtKey k = true
    · simp only [hat, if_true] at h
      exact ih _ _ _ _ h x hx
    · rw [Bool.not_eq_true] at hat
      simp only [hat, Bool.false_eq_true, if_false] at h
      by_cases hbio : bioMatch (clean_key k) = true
      · simp only [hbio, if_true] at h
        by_cases hdf : dateFields.contains (clean_key k) = true
        · simp only [hdf, if_true] at h
          cases hfmt : format_excel_date v with
          | none => rw [hfmt] at h; cases h
          | some fv =>
            rw [hfmt] at h
            exact ih _ _ _ _ h x (by rw [containsK_insertUpd, hx]; rfl)
        · rw [Bool.not_eq_true] at hdf
          simp only [hdf, Bool.false_eq_true, if_false] at h
          exact ih _ _ _ _ h x (by rw [containsK_insertUpd, hx]; rfl)
      · rw [Bool.not_eq_true] at hbio
        simp only [hbio, Bool.false_eq_true, if_false] at h
        by_cases htr : truthy v = true
        · simp only [htr, if_true] at h
          exact ih _ _ _ _ h x hx
        · rw [Bool.not_eq_true] at htr
          simp only [htr, Bool.false_eq_true, if_false] at h
          exact ih _ _ _ _ h x hx

/-- Every non-internal biographical field of the record contributes its
cleaned key to the final metadata. -/
theorem processFields_meta_mem :
    ∀ (fs m : List (String × JsonVal)) (qa : List QAPair) M Q,
      processFields fs m qa = some (M, Q) →
      ∀ kv ∈ fs, isAtKey kv.1 = false → bioMatch (clean_key kv.1) = true →
        containsK M (clean_key kv.1) = true := by
  intro fs
  induction fs with
  | nil =>
    intro m qa M Q h kv hkv
    cases hkv
  | cons kv0 rest ih =>
    obtain ⟨k, v⟩ := kv0
    intro m qa M Q h kv hkv hat hbio
    rcases List.mem_cons.mp hkv with heq | hmem
    · have hk1 : kv.1 = k := by rw [heq]
      have hk2 : kv.2 = v := by rw [heq]
      rw [hk1] at hat hbio ⊢
      simp only [processFields, hat, Bool.false_eq_true, if_false, hbio, if_true] at h
      by_cases hdf : dateFields.contains (clean_key k) = true
      · simp only [hdf, if_true] at h
        cases hfmt : format_excel_date v with
        | none => rw [hfmt] at h; cases h
        | some fv =>
          rw [hfmt] at h
          exact processFields_meta_mono _ _ _ _ _ h _ (by rw [containsK_insertUpd]; simp)
      · rw [Bool.not_eq_true] at hdf
        simp only [hdf, Bool.false_eq_true, if_false] at h
        exact processFields_meta_mono _ _ _ _ _ h _ (by rw [containsK_insertUpd]; simp)
    · simp only [processFields] at h
      by_cases hat0 : isAtKey k = true
      · simp only [hat0, if_true] at h
        exact ih _ _ _ _ h kv hmem hat hbio
      · rw [Bool.not_eq_true] at hat0
        simp only [hat0, Bool.false_eq_true, if_false] at h
        by_cases hbio0 : bioMatch (clean_key k) = true
        · simp only [hbio0, if_true] at h
          by_cases hdf : dateFields.contains (clean_key k) = true
          · simp only [hdf, if_true] at h
            cases hfmt : format_excel_date v with
            | none => rw [hfmt] at h; cases h
            | some fv => rw [hfmt] at h; exact ih _ _ _ _ h kv hmem hat hbio
          · rw [Bool.not_eq_true] at hdf
            simp only [hdf, Bool.false_eq_true, if_false] at h
            exact ih _ _ _ _ h kv hmem hat hbio
        · rw [Bool.not_eq_true] at hbio0
          simp only [hbio0, Bool.false_eq_true, if_false] at h
          by_cases htr : truthy v = true
          · simp only [htr, if_true] at h
            exact ih _ _ _ _ h kv hmem hat hbio
          · rw [Bool.not_eq_true] at htr
            simp only [htr, Bool.false_eq_true, if_false] at h
            exact ih _ _ _ _ h kv hmem hat hbio

/-- The loop never adds a non-biographical key to the metadata: a key not
present at entry and failing the biographical check is absent at exit. -/
theorem processFields_meta_bio :
    ∀ (fs m : List (String × JsonVal)) (qa : List QAPair) M Q,
      processFields fs m qa = some (M, Q) →
      ∀ x, bioMatch x = false → containsK m x = false → containsK M x = false := by
  intro fs
  induction fs with
  | nil =>
    intro m qa M Q h x hx hm
    cases h
    exact hm
  | cons kv rest ih =>
    obtain ⟨k, v⟩ := kv
    intro m qa M Q h x hx hm
    simp only [processFields] at h
    by_cases hat : isAtKey k = true
    · simp only [hat, if_true] at h
      exact ih _ _ _ _ h x hx hm
    · rw [Bool.not_eq_true] at hat
      simp only [hat, Bool.false_eq_true, if_false] at h
      by_cases hbio : bioMatch (clean_key k) = true
      · have hkx : (clean_key k == x) = false := by
          rcases hbeq : clean_key k == x with _ | _
          · rfl
          · rw [beq_iff_eq] at hbeq
            rw [hbeq] at hbio
            rw [hbio] at hx
            cases hx
        simp only [hbio, if_true] at h
        by_cases hdf : dateFields.contains (clean_key k) = true
        · simp only [hdf, if_true] at h
          cases hfmt : format_excel_date v with
          | none => rw [hfmt] at h; cases h
          | some fv =>
            rw [hfmt] at h
            exact ih _ _ _ _ h x hx (by rw [containsK_insertUpd, hm, hkx]; rfl)
        · rw [Bool.not_eq_true] at hdf
          simp only [hdf, Bool.false_eq_true, if_false] at h
          exact ih _ _ _ _ h x hx (by rw [containsK_insertUpd, hm, hkx]; rfl)
      · rw [Bool.not_eq_true] at hbio
        simp only [hbio, Bool.false_eq_true, if_false] at h
        by_cases htr : truthy v = true
        · simp only [htr, if_true] at h
          exact ih _ _ _ _ h x hx hm
        · rw [Bool.not_eq_true] at htr
          simp only [htr, Bool.false_eq_true, if_false] at h
          exact ih _ _ _ _ h x hx hm

/-- Every emitted question comes from a truthy non-biographical field, so
its question fails the biographical check and its answer is the Python
string of a truthy value. -/
theorem qaOf_mem (fs : List (String × JsonVal)) (e : QAPair) (he : e ∈ qaOf fs) :
    bioMatch e.question = false ∧ ∃ v, truthy v = true ∧ e.answer = pyStr v := by
  rw [qaOf, List.mem_filterMap] at he
  obtain ⟨kv, _, hf⟩ := he
  by_cases hc : isAtKey kv.1 = false ∧ bioMatch (clean_key kv.1) = false ∧ truthy kv.2 = true
  · rw [if_pos hc] at hf
    cases hf
    exact ⟨hc.2.1, kv.2, hc.2.2, rfl⟩
  · rw [if_neg hc] at hf
    cases hf

/-- Introduction form: a truthy non-biographical non-internal field always
appears in the emitted question list. -/
theorem qaOf_mem_intro (fs : List (String × JsonVal)) (k : String) (v : JsonVal)
    (hmem : (k, v) ∈ fs) (hat : isAtKey k = false)
    (hbio : bioMatch (clean_key k) = false) (htr : truthy v = true) :
    (⟨clean_key k, pyStr v⟩ : QAPair) ∈ qaOf fs := by
  rw [qaOf, List.mem_filterMap]
  exact ⟨(k, v), hmem, by rw [if_pos ⟨hat, hbio, htr⟩]⟩

/-- A nonempty character list makes a nonempty string. -/
theorem mkStr_ne_empty (l : List Char) (h : ¬ l = []) : ¬ String.mk l = "" := by
  intro hc
  exact h (congrArg String.data hc)

/-- The digit printer never produces an empty digit list. -/
theorem natStrAux_ne_nil (f n : Nat) : ¬ natStrAux (f + 1) n = [] := by
  simp only [natStrAux]
  split
  · simp
  · simp

/-- Python str of a truthy value is never the empty string. -/
theorem pyStr_ne_empty (v : JsonVal) (h : truthy v = true) : pyStr v ≠ "" := by
  cases v with
  | null => cases h
  | bool b =>
    cases b with
    | false => cases h
    | true => simp [pyStr]
  | num n =>
    cases n with
    | ofNat m => exact mkStr_ne_empty _ (natStrAux_ne_nil m m)
    | negSucc m =>
      intro hc
      have hc2 : "-" ++ natStr (m + 1) = "" := hc
      have := congrArg String.data hc2
      rw [String.data_append] at this
      cases this
  | str s =>
    simp only [truthy, Bool.not_eq_true'] at h
    simpa [pyStr] using h
  | arr l =>
    intro hc
    have := congrArg String.data hc
    rw [pyStr, pyRepr, String.data_append] at this
    cases this
  | obj l =>
    intro hc
    have := congrArg String.data hc
    rw [pyStr, pyRepr, String.data_append] at this
    cases this

/-- Claim C2: every non-internal key of a successfully processed record is
routed to exactly one of metadata and the question list: a biographical
key lands in metadata and never among the questions, while a truthy
non-biographical field lands in the question list and never in metadata;
only falsy question fields may be dropped. -/
theorem c2_exclusive_routing (fs : List (String × JsonVal))
    (M : List (String × JsonVal)) (Q : List QAPair)
    (h : processFields fs [] [] = some (M, Q)) (k : String) (v : JsonVal)
    (hmem : (k, v) ∈ fs) (hat : isAtKey k = false) :
    (bioMatch (clean_key k) = true →
      containsK M (clean_key k) = true ∧ ∀ e ∈ Q, ¬ e.question = clean_key k) ∧
    (bioMatch (clean_key k) = false → truthy v = true →
      (∃ e ∈ Q, e.question = clean_key k) ∧ containsK M (clean_key k) = false) := by
  have hqa : Q = qaOf fs := by simpa using processFields_qa fs [] [] M Q h
  constructor
  · intro hbio
    refine ⟨processFields_meta_mem fs [] [] M Q h (k, v) hmem hat hbio, ?_⟩
    intro e he heq
    have hb := (qaOf_mem fs e (hqa ▸ he)).1
    rw [heq, hbio] at hb
    cases hb
  · intro hbio htr
    constructor
    · exact ⟨⟨clean_key k, pyStr v⟩, hqa ▸ qaOf_mem_intro fs k v hmem hat hbio htr, rfl⟩
    · exact processFields_meta_bio fs [] [] M Q h (clean_key k) hbio rfl

/-- Claim C2 witness at a concrete two-field record. -/
theorem c2_exclusive_routing_witness :
    (∃ e ∈ ([⟨"Q1", "yes"⟩] : List QAPair), e.question = clean_key "Q1") ∧
    containsK [("Name", JsonVal.str "A")] (clean_key "Q1") = false := by
  have h := c2_exclusive_routing
    [("Name", JsonVal.str "A"), ("Q1", JsonVal.str "yes")]
    [("Name", JsonVal.str "A")] [⟨"Q1", "yes"⟩] rfl "Q1" (JsonVal.str "yes")
    (List.mem_cons_of_mem _ (List.mem_cons_self _ _)) rfl
  exact h.2 (by decide) rfl

/-- Claim C4: the question list of a successfully processed record is
exactly the in-order filter of the record (so source order is preserved
with only drops applied), no emitted answer is empty, and concretely the
falsy values empty string, zero, false and null are dropped while the
nonempty string "0" is kept with answer "0". -/
theorem c4_qa_order_and_drop_rule :
    (∀ (fs : List (String × JsonVal)) (M : List (String × JsonVal)) (Q : List QAPair),
      processFields fs [] [] = some (M, Q) →
      Q = qaOf fs ∧ ∀ e ∈ Q, ¬ e.answer = "") ∧
    processFields
      [("Q1", .str "0"), ("Q2", .str ""), ("Q3", .num 0), ("Q4", .bool false), ("Q5", .null)]
      [] [] = some ([], [⟨"Q1", "0"⟩]) := by
  refine ⟨?_, rfl⟩
  intro fs M Q h
  have hqa : Q = qaOf fs := by simpa using processFields_qa fs [] [] M Q h
  refine ⟨hqa, ?_⟩
  intro e he
  obtain ⟨-, v, htr, hans⟩ := qaOf_mem fs e (hqa ▸ he)
  rw [hans]
  exact pyStr_ne_empty v htr

/-- Claim C4 witness at a concrete record. -/
theorem c4_qa_order_and_drop_rule_witness :
    ([⟨"Q1", "yes"⟩] : List QAPair) =
      qaOf [("Name", JsonVal.str "A"), ("Q1", JsonVal.str "yes")] ∧
    ∀ e ∈ ([⟨"Q1", "yes"⟩] : List QAPair), ¬ e.answer = "" :=
  c4_qa_order_and_drop_rule.1
    [("Name", JsonVal.str "A"), ("Q1", JsonVal.str "yes")]
    [("Name", JsonVal.str "A")] [⟨"Q1", "yes"⟩] rfl

/-- Claim C6: classification is case-insensitive — a cleaned key passes
the biographical check exactly when some entry of the biographical field
enumeration agrees with it up to case; in particular both email and Email
classify as biographical and are routed to metadata. -/
theorem c6_case_insensitive_classification :
    (∀ ck : String, bioMatch ck = true ↔ ∃ b, b ∈ BIO_FIELDS ∧ lowerStr b = lowerStr ck) ∧
    bioMatch "email" = true ∧ bioMatch "Email" = true ∧
    processFields [("email", .str "x")] [] [] = some ([("email", .str "x")], []) ∧
    processFields [("Email", .str "x")] [] [] = some ([("Email", .str "x")], []) := by
  refine ⟨?_, by decide, by decide, rfl, rfl⟩
  intro ck
  simp [bioMatch, List.any_eq_true, beq_iff_eq]

/-- Claim C9: date normalization applies only on a case-sensitive match of
the cleaned key against the date-field list: any biographical key outside
that list stores its value verbatim in metadata; concretely the lowercase
key completion time is biographical yet keeps the raw serial 1, while
Completion time is formatted to December 31, 1899. -/
theorem c9_date_case_sensitivity :
    (∀ (k : String) (v : JsonVal), isAtKey k = false →
      bioMatch (clean_key k) = true → dateFields.contains (clean_key k) = false →
      processFields [(k, v)] [] [] = some ([(clean_key k, v)], [])) ∧
    processFields [("completion time", .num 1)] [] [] =
      some ([("completion time", .num 1)], []) ∧
    processFields [("Completion time", .num 1)] [] [] =
      some ([("Completion time", .str "December 31, 1899")], []) := by
  refine ⟨?_, rfl, rfl⟩
  intro k v hat hbio hdf
  have hdf2 : ¬ clean_key k ∈ dateFields := by simpa using hdf
  simp [processFields, hat, hbio, hdf2, insertUpd]

/-- Claim C9 witness at the lowercase completion time key. -/
theorem c9_date_case_sensitivity_witness :
    processFields [("completion time", JsonVal.num 1)] [] [] =
      some ([(clean_key "completion time", JsonVal.num 1)], []) :=
  c9_date_case_sensitivity.1 "completion time" (JsonVal.num 1) rfl (by decide) (by decide)

/-- Claim C10 witness: a record whose only key is internal processes to
the empty outputs. -/
theorem c10_empty_record_success_witness :
    processFields [("@odata.etag", JsonVal.str "x")] [] [] = some ([], []) :=
  c10_empty_record_success.2.2 [("@odata.etag", JsonVal.str "x")]
    (by intro kv hkv; rw [List.mem_singleton] at hkv; rw [hkv]; rfl)

/-- Claim C3 witness: the non-JSON reference input fails. -/
theorem c3_all_or_nothing_extraction_witness :
    parse_json_data "not json" = none :=
  c3_all_or_nothing_extraction.1 "not json" rfl

/-- Successful pattern stripping decomposes the list. -/
theorem stripPre_eq_some :
    ∀ (p s r : List Char), stripPre p s = some r → s = p ++ r := by
  intro p
  induction p with
  | nil =>
    intro s r h
    simp only [stripPre, Option.some_inj] at h
    rw [h]
    rfl
  | cons a p ih =>
    intro s r h
    cases s with
    | nil => cases h
    | cons b t =>
      simp only [stripPre] at h
      by_cases hab : a = b
      · rw [if_pos hab] at h
        rw [← hab, List.cons_append]
        exact congrArg _ (ih t r h)
      · rw [if_neg hab] at h
        cases h

/-- Stripping a pattern off itself plus a remainder always succeeds. -/
theorem stripPre_append : ∀ (p r : List Char), stripPre p (p ++ r) = some r := by
  intro p
  induction p with
  | nil => intro r; rfl
  | cons a p ih => intro r; simp only [List.cons_append, stripPre, if_pos rfl]; exact ih r

/-- Cons patterns strip only when heads agree. -/
theorem stripPre_cons_some (a : Char) (p : List Char) (b : Char) (s r : List Char)
    (h : stripPre (a :: p) (b :: s) = some r) : a = b ∧ stripPre p s = some r := by
  simp only [stripPre] at h
  by_cases hab : a = b
  · rw [if_pos hab] at h
    exact ⟨hab, h⟩
  · rw [if_neg hab] at h
    cases h

/-- The empty pattern occurs in every list. -/
theorem containsSub_nil_pat : ∀ w : List Char, containsSub [] w = true := by
  intro w
  cases w with
  | nil => rfl
  | cons a t => simp [containsSub, startsList, stripPre]

/-- An occurrence in the right part survives prepending on the left. -/
theorem containsSub_append_left (p : List Char) :
    ∀ (u t : List Char), containsSub p t = true → containsSub p (u ++ t) = true := by
  intro u
  induction u with
  | nil => intro t h; exact h
  | cons a u ih =>
    intro t h
    simp only [List.cons_append, containsSub, Bool.or_eq_true]
    exact Or.inr (ih t h)

/-- An occurrence in the left part survives appending on the right. -/
theorem containsSub_append_right (p : List Char) :
    ∀ (u w : List Char), containsSub p u = true → containsSub p (u ++ w) = true := by
  intro u
  induction u with
  | nil =>
    intro w h
    simp only [containsSub, List.isEmpty_iff] at h
    rw [h]
    exact containsSub_nil_pat w
  | cons a u ih =>
    intro w h
    simp only [containsSub, Bool.or_eq_true, startsList, Option.isSome_iff_exists] at h ⊢
    rcases h with ⟨r, hr⟩ | h
    · refine Or.inl ⟨r ++ w, ?_⟩
      have hd := stripPre_eq_some p (a :: u) r hr
      have he : a :: (u ++ w) = p ++ (r ++ w) := by
        rw [← List.append_assoc, ← hd]
        rfl
      simp only [List.append_eq]
      rw [he]
      exact stripPre_append p (r ++ w)
    · exact Or.inr (ih w h)

/-- An occurrence inside a block of characters foreign to the pattern
must lie beyond the block. -/
theorem containsSub_block (p : List Char) (hp : ¬ p = []) :
    ∀ (c w : List Char), (∀ ch ∈ c, ¬ ch ∈ p) → containsSub p (c ++ w) = true →
      containsSub p w = true := by
  intro c
  induction c with
  | nil => intro w _ h; exact h
  | cons ch c ih =>
    intro w hd h
    simp only [List.cons_append, containsSub, Bool.or_eq_true, startsList,
      Option.isSome_iff_exists] at h
    rcases h with ⟨r, hr⟩ | h
    · exfalso
      cases p with
      | nil => exact hp rfl
      | cons p0 pt =>
        have := (stripPre_cons_some p0 pt ch (c ++ w) r hr).1
        exact hd ch (List.mem_cons_self ch c) (this ▸ List.mem_cons_self p0 pt)
    · exact ih w (fun e he => hd e (List.mem_cons_of_mem ch he)) h

/-- Reflection through replace: a nonempty piece of the watched pattern
that starts the replaced output also starts the input, because the
replacement text contains no character of the watched pattern. -/
theorem repAux_reflect (r c pw : List Char) (hc : ¬ c = [])
    (hd : ∀ ch ∈ c, ¬ ch ∈ pw) :
    ∀ (f : Nat) (s : List Char) (k : Nat) (pre : List Char), ¬ pre = [] →
      startsList pre (List.drop k pw) = true →
      startsList pre (pyRepAux r c f s) = true → startsList pre s = true := by
  intro f
  induction f with
  | zero => intro s k pre _ _ h; exact h
  | succ f ih =>
    intro s k pre hpre hk h
    cases s with
    | nil =>
      cases pre with
      | nil => exact absurd rfl hpre
      | cons p0 pre2 => simp [pyRepAux, startsList, stripPre] at h
    | cons a t =>
      cases pre with
      | nil => exact absurd rfl hpre
      | cons p0 pre2 =>
        have hp0 : p0 ∈ pw := by
          simp only [startsList, Option.isSome_iff_exists] at hk
          obtain ⟨z, hz⟩ := hk
          have := stripPre_eq_some _ _ _ hz
          have hmem : p0 ∈ List.drop k pw := by
            rw [this]
            exact List.mem_append_left _ (List.mem_cons_self p0 pre2)
          have := List.take_append_drop k pw
          rw [← this]
          exact List.mem_append_right _ hmem
        simp only [pyRepAux] at h
        cases hsp : stripPre r (a :: t) with
        | some rest =>
          rw [hsp] at h
          exfalso
          cases c with
          | nil => exact hc rfl
          | cons c0 c1 =>
            simp only [List.cons_append, startsList, Option.isSome_iff_exists] at h
            obtain ⟨z, hz⟩ := h
            have := (stripPre_cons_some p0 pre2 c0 _ z hz).1
            exact hd c0 (List.mem_cons_self c0 c1) (this ▸ hp0)
        | none =>
          rw [hsp] at h
          simp only [startsList, Option.isSome_iff_exists] at h
          obtain ⟨z, hz⟩ := h
          obtain ⟨hpa, hz2⟩ := stripPre_cons_some p0 pre2 a _ z hz
          by_cases hpre2 : pre2 = []
          · subst hpa
            rw [hpre2]
            simp [startsList, stripPre]
          · have hk2 : startsList pre2 (List.drop (k + 1) pw) = true := by
              simp only [startsList, Option.isSome_iff_exists] at hk ⊢
              obtain ⟨z0, hz0⟩ := hk
              cases hdrop : List.drop k pw with
              | nil =>
                rw [hdrop] at hz0
                simp [stripPre] at hz0
              | cons d0 d1 =>
                rw [hdrop] at hz0
                obtain ⟨-, hz3⟩ := stripPre_cons_some p0 pre2 d0 d1 z0 hz0
                have h2 : List.drop 1 (List.drop k pw) = List.drop (k + 1) pw :=
                  List.drop_drop 1 k pw
                rw [hdrop] at h2
                have hone : List.drop (k + 1) pw = d1 := by
                  rw [← h2]
                  simp
                rw [hone]
                exact ⟨z0, hz3⟩
            have hz2s : startsList pre2 (pyRepAux r c f t) = true := by
              simp only [startsList, hz2, Option.isSome_some]
            have hrec := ih t (k + 1) pre2 hpre2 hk2 hz2s
            simp only [startsList, Option.isSome_iff_exists] at hrec ⊢
            obtain ⟨w, hw⟩ := hrec
            refine ⟨w, ?_⟩
            subst hpa
            simp only [stripPre, if_pos rfl]
            exact hw

/-- A replace-all with adequate fuel leaves no occurrence of the replaced
pattern, provided the replacement introduces none of its characters. -/
theorem repAux_self_elim (p c : List Char) (hp : ¬ p = []) (hc : ¬ c = [])
    (hd : ∀ ch ∈ c, ¬ ch ∈ p) :
    ∀ (f : Nat) (s : List Char), s.length ≤ f →
      containsSub p (pyRepAux p c f s) = false := by
  intro f
  induction f with
  | zero =>
    intro s hlen
    rw [List.length_eq_zero.mp (Nat.le_zero.mp hlen)]
    simp only [pyRepAux, containsSub, List.isEmpty_iff]
    cases hb : List.isEmpty p
    · rfl
    · exact absurd (List.isEmpty_iff.mp hb) hp
  | succ f ih =>
    intro s hlen
    cases s with
    | nil =>
      simp only [pyRepAux, containsSub]
      cases hb : List.isEmpty p
      · rfl
      · exact absurd (List.isEmpty_iff.mp hb) hp
    | cons a t =>
      simp only [pyRepAux]
      cases hsp : stripPre p (a :: t) with
      | some rest =>
        have hdec := stripPre_eq_some p (a :: t) rest hsp
        have hrl : rest.length ≤ f := by
          have := congrArg List.length hdec
          simp only [List.length_cons, List.length_append] at this
          simp only [List.length_cons] at hlen
          cases p with
          | nil => exact absurd rfl hp
          | cons p0 pt => simp only [List.length_cons] at this; omega
        cases hb : containsSub p (c ++ pyRepAux p c f rest)
        · rfl
        · exfalso
          have := containsSub_block p hp c _ hd hb
          rw [ih rest hrl] at this
          cases this
      | none =>
        simp only [containsSub, Bool.or_eq_false_iff]
        constructor
        · cases hb : startsList p (a :: pyRepAux p c f t)
          · rfl
          · exfalso
            simp only [startsList, Option.isSome_iff_exists] at hb
            obtain ⟨z, hz⟩ := hb
            cases p with
            | nil => exact hp rfl
            | cons p0 pt =>
              obtain ⟨hpa, hz2⟩ := stripPre_cons_some p0 pt a _ z hz
              by_cases hpt : pt = []
              · rw [hpt] at hsp
                subst hpa
                simp [stripPre] at hsp
              · have hz2s : startsList pt (pyRepAux (p0 :: pt) c f t) = true := by
                  simp only [startsList, hz2, Option.isSome_some]
                have hk : startsList pt (List.drop 1 (p0 :: pt)) = true := by
                  simp only [List.drop_one, List.tail_cons, startsList]
                  have : stripPre pt (pt ++ []) = some [] := stripPre_append pt []
                  rw [List.append_nil] at this
                  simp [this]
                have hrec := repAux_reflect (p0 :: pt) c (p0 :: pt) hc hd f t 1 pt hpt hk hz2s
                simp only [startsList, Option.isSome_iff_exists] at hrec
                obtain ⟨w, hw⟩ := hrec
                have ht := stripPre_eq_some pt t w hw
                subst hpa
                rw [ht, ← List.cons_append] at hsp
                rw [stripPre_append (p0 :: pt) w] at hsp
                cases hsp
        · have htl : t.length ≤ f := by
            simp only [List.length_cons] at hlen
            omega
          exact ih t htl

/-- Replacing one pattern cannot create an occurrence of another pattern
that shares no character with the replacement text. -/
theorem repAux_preserve (r p c : List Char) (hp : ¬ p = [])
    (hc : ¬ c = []) (hd : ∀ ch ∈ c, ¬ ch ∈ p) :
    ∀ (f : Nat) (s : List Char), containsSub p s = false →
      containsSub p (pyRepAux r c f s) = false := by
  intro f
  induction f with
  | zero => intro s hs; exact hs
  | succ f ih =>
    intro s hs
    cases s with
    | nil => exact hs
    | cons a t =>
      have hsplit : startsList p (a :: t) = false ∧ containsSub p t = false := by
        simp only [containsSub, Bool.or_eq_false_iff] at hs
        exact hs
      simp only [pyRepAux]
      cases hsp : stripPre r (a :: t) with
      | some rest =>
        have hdec := stripPre_eq_some r (a :: t) rest hsp
        have hrest : containsSub p rest = false := by
          cases hb : containsSub p rest
          · rfl
          · exfalso
            have := containsSub_append_left p r rest hb
            rw [← hdec] at this
            rw [hs] at this
            cases this
        cases hb : containsSub p (c ++ pyRepAux r c f rest)
        · rfl
        · exfalso
          have := containsSub_block p hp c _ hd hb
          rw [ih rest hrest] at this
          cases this
      | none =>
        simp only [containsSub, Bool.or_eq_false_iff]
        refine ⟨?_, ih t hsplit.2⟩
        cases hb : startsList p (a :: pyRepAux r c f t)
        · rfl
        · exfalso
          simp only [startsList, Option.isSome_iff_exists] at hb
          obtain ⟨z, hz⟩ := hb
          cases p with
          | nil => exact hp rfl
          | cons p0 pt =>
            obtain ⟨hpa, hz2⟩ := stripPre_cons_some p0 pt a _ z hz
            by_cases hpt : pt = []
            · subst hpa
              rw [hpt] at hsplit
              simp [startsList, stripPre] at hsplit
            · have hz2s : startsList pt (pyRepAux r c f t) = true := by
                simp only [startsList, hz2, Option.isSome_some]
              have hk : startsList pt (List.drop 1 (p0 :: pt)) = true := by
                simp only [List.drop_one, List.tail_cons, startsList]
                have h0 : stripPre pt (pt ++ []) = some [] := stripPre_append pt []
                rw [List.append_nil] at h0
                simp [h0]
              have hrec := repAux_reflect r c (p0 :: pt) hc hd f t 1 pt hpt hk hz2s
              simp only [startsList, Option.isSome_iff_exists] at hrec
              obtain ⟨w, hw⟩ := hrec
              have ht := stripPre_eq_some pt t w hw
              subst hpa
              rw [ht] at hsplit
              have hfull : startsList (p0 :: pt) (p0 :: (pt ++ w)) = true := by
                simp only [startsList, ← List.cons_append, stripPre_append, Option.isSome_some]
              rw [hfull] at hsplit
              cases hsplit.1

/-- When the pattern does not occur, replace-all is the identity at any
fuel. -/
theorem repAux_id (p c : List Char) :
    ∀ (f : Nat) (s : List Char), containsSub p s = false → pyRepAux p c f s = s := by
  intro f
  induction f with
  | zero => intro s _; rfl
  | succ f ih =>
    intro s hs
    cases s with
    | nil => rfl
    | cons a t =>
      have hsplit : startsList p (a :: t) = false ∧ containsSub p t = false := by
        simp only [containsSub, Bool.or_eq_false_iff] at hs
        exact hs
      simp only [pyRepAux]
      cases hsp : stripPre p (a :: t) with
      | some rest =>
        exfalso
        have : startsList p (a :: t) = true := by
          simp only [startsList, hsp, Option.isSome_some]
        rw [this] at hsplit
        cases hsplit.1
      | none => exact congrArg _ (ih t hsplit.2)

/-- After decoding, none of the three placeholder patterns occurs. -/
theorem decodeKey_no_pattern (l : List Char) :
    containsSub ("_x002e_".data) (decodeKey l) = false ∧
    containsSub ("_x003a_".data) (decodeKey l) = false ∧
    containsSub ("_x0023_".data) (decodeKey l) = false := by
  have hdot1 : containsSub ("_x002e_".data) (pyReplace ("_x002e_".data) (".".data) l) = false :=
    repAux_self_elim _ _ (by decide) (by decide) (by decide) l.length l (Nat.le_refl _)
  have hdot2 : containsSub ("_x002e_".data)
      (pyReplace ("_x003a_".data) (":".data) (pyReplace ("_x002e_".data) (".".data) l)) = false :=
    repAux_preserve _ _ _ (by decide) (by decide) (by decide) _ _ hdot1
  have hdot3 : containsSub ("_x002e_".data) (decodeKey l) = false :=
    repAux_preserve _ _ _ (by decide) (by decide) (by decide) _ _ hdot2
  have hcol1 : containsSub ("_x003a_".data)
      (pyReplace ("_x003a_".data) (":".data) (pyReplace ("_x002e_".data) (".".data) l)) = false :=
    repAux_self_elim _ _ (by decide) (by decide) (by decide) _ _ (Nat.le_refl _)
  have hcol2 : containsSub ("_x003a_".data) (decodeKey l) = false :=
    repAux_preserve _ _ _ (by decide) (by decide) (by decide) _ _ hcol1
  have hhash : containsSub ("_x0023_".data) (decodeKey l) = false :=
    repAux_self_elim _ _ (by decide) (by decide) (by decide) _ _ (Nat.le_refl _)
  exact ⟨hdot3, hcol2, hhash⟩

/-- Decoding a placeholder-free list is the identity. -/
theorem decodeKey_id (s : List Char)
    (hd : containsSub ("_x002e_".data) s = false)
    (hc : containsSub ("_x003a_".data) s = false)
    (hh : containsSub ("_x0023_".data) s = false) : decodeKey s = s := by
  have h1 : pyReplace ("_x002e_".data) (".".data) s = s := repAux_id _ _ s.length s hd
  have h2 : pyReplace ("_x003a_".data) (":".data) s = s := repAux_id _ _ s.length s hc
  have h3 : pyReplace ("_x0023_".data) ("#".data) s = s := repAux_id _ _ s.length s hh
  unfold decodeKey
  rw [h1, h2, h3]

/-- The whitespace-dropped front is a suffix of the list. -/
theorem dropWhile_suffix_ex (f : Char → Bool) :
    ∀ l : List Char, ∃ u, l = u ++ List.dropWhile f l := by
  intro l
  induction l with
  | nil => exact ⟨[], rfl⟩
  | cons a t ih =>
    by_cases ha : f a = true
    · obtain ⟨u, hu⟩ := ih
      refine ⟨a :: u, ?_⟩
      rw [List.dropWhile_cons_of_pos ha, List.cons_append, ← hu]
    · rw [Bool.not_eq_true] at ha
      exact ⟨[], by rw [List.dropWhile_cons_of_neg (by rw [ha]; exact Bool.false_ne_true)]; rfl⟩

/-- The end-dropped part is a front piece of the list. -/
theorem dropWhileEndC_ex : ∀ l : List Char, ∃ w, l = dropWhileEndC l ++ w := by
  intro l
  induction l with
  | nil => exact ⟨[], rfl⟩
  | cons a t ih =>
    obtain ⟨w, hw⟩ := ih
    simp only [dropWhileEndC]
    by_cases hcond : (dropWhileEndC t).isEmpty && isPySpace a
    · rw [if_pos hcond]
      refine ⟨a :: t, rfl⟩
    · rw [if_neg hcond]
      exact ⟨w, by rw [List.cons_append, ← hw]⟩

/-- An occurrence inside the stripped string maps to one in the original. -/
theorem stripMono (p x : List Char) (h : containsSub p (pyStripL x) = true) :
    containsSub p x = true := by
  obtain ⟨w, hw⟩ := dropWhileEndC_ex (List.dropWhile isPySpace x)
  obtain ⟨u, hu⟩ := dropWhile_suffix_ex isPySpace x
  have h1 : containsSub p (List.dropWhile isPySpace x) = true := by
    rw [hw]
    exact containsSub_append_right p _ w h
  rw [hu]
  exact containsSub_append_left p u _ h1

/-- Contrapositive form of the strip monotonicity. -/
theorem stripMonoF (p x : List Char) (h : containsSub p x = false) :
    containsSub p (pyStripL x) = false := by
  cases hb : containsSub p (pyStripL x)
  · rfl
  · rw [stripMono p x hb] at h
    cases h

/-- The first survivor of dropWhile fails the predicate. -/
theorem dropWhile_head (f : Char → Bool) :
    ∀ (l t : List Char) (a : Char), List.dropWhile f l = a :: t → f a = false := by
  intro l
  induction l with
  | nil => intro t a h; cases h
  | cons b t0 ih =>
    intro t a h
    by_cases hb : f b = true
    · rw [List.dropWhile_cons_of_pos hb] at h
      exact ih t a h
    · rw [Bool.not_eq_true] at hb
      rw [List.dropWhile_cons_of_neg (by rw [hb]; exact Bool.false_ne_true)] at h
      cases h
      exact hb

/-- Dropping trailing whitespace twice is the same as once. -/
theorem dropWhileEndC_idem : ∀ l : List Char, dropWhileEndC (dropWhileEndC l) = dropWhileEndC l := by
  intro l
  induction l with
  | nil => rfl
  | cons a t ih =>
    simp only [dropWhileEndC]
    by_cases hcond : (dropWhileEndC t).isEmpty && isPySpace a
    · rw [if_pos hcond]
      rfl
    · rw [if_neg hcond]
      simp only [dropWhileEndC, ih]
      rw [if_neg hcond]

/-- Python strip is idempotent. -/
theorem pyStripL_idem (l : List Char) : pyStripL (pyStripL l) = pyStripL l := by
  unfold pyStripL
  have hdw : List.dropWhile isPySpace (dropWhileEndC (List.dropWhile isPySpace l)) =
      dropWhileEndC (List.dropWhile isPySpace l) := by
    cases hdwe : dropWhileEndC (List.dropWhile isPySpace l) with
    | nil => rfl
    | cons b t2 =>
      obtain ⟨w, hw⟩ := dropWhileEndC_ex (List.dropWhile isPySpace l)
      rw [hdwe] at hw
      have hb : isPySpace b = false := dropWhile_head isPySpace l (t2 ++ w) b hw
      rw [List.dropWhile_cons_of_neg (by rw [hb]; exact Bool.false_ne_true)]
  rw [hdw, dropWhileEndC_idem]

/-- Definitional unfolding of clean_key with the let inlined. -/
theorem clean_key_eq (key : String) :
    clean_key key =
      (if containsSub ("LinkedIn Profile URL".data) (decodeKey key.data) then
        "LinkedIn Profile URL"
      else if containsSub ("Portfolio URL".data) (decodeKey key.data) then "Portfolio URL"
      else String.mk (pyStripL (decodeKey key.data))) := rfl

/-- A key produced by the stripping branch of clean_key is a fixed point
of clean_key. -/
theorem clean_key_else_fixed (l : List Char)
    (h1 : containsSub ("LinkedIn Profile URL".data) l = false)
    (h2 : containsSub ("Portfolio URL".data) l = false)
    (hd : containsSub ("_x002e_".data) l = false)
    (hc : containsSub ("_x003a_".data) l = false)
    (hh : containsSub ("_x0023_".data) l = false) :
    clean_key (String.mk (pyStripL l)) = String.mk (pyStripL l) := by
  have hdk : decodeKey (String.mk (pyStripL l)).data = pyStripL l :=
    decodeKey_id _ (stripMonoF _ _ hd) (stripMonoF _ _ hc) (stripMonoF _ _ hh)
  have hl1 : containsSub ("LinkedIn Profile URL".data) (pyStripL l) = false :=
    stripMonoF _ _ h1
  have hl2 : containsSub ("Portfolio URL".data) (pyStripL l) = false :=
    stripMonoF _ _ h2
  rw [clean_key_eq, hdk]
  simp only [hl1, hl2, Bool.false_eq_true, if_false]
  rw [pyStripL_idem]

/-- Claim C5: key cleaning is idempotent — applying clean_key twice gives
the same result as applying it once, for every string key. -/
theorem c5_clean_key_idempotent (s : String) :
    clean_key (clean_key s) = clean_key s := by
  by_cases h1 : containsSub ("LinkedIn Profile URL".data) (decodeKey s.data) = true
  · have hs : clean_key s = "LinkedIn Profile URL" := by rw [clean_key_eq, if_pos h1]
    rw [hs]
    rfl
  · rw [Bool.not_eq_true] at h1
    by_cases h2 : containsSub ("Portfolio URL".data) (decodeKey s.data) = true
    · have hs : clean_key s = "Portfolio URL" := by
        rw [clean_key_eq]
        simp only [h1, Bool.false_eq_true, if_false, h2, if_true]
      rw [hs]
      rfl
    · rw [Bool.not_eq_true] at h2
      have hs : clean_key s = String.mk (pyStripL (decodeKey s.data)) := by
        rw [clean_key_eq]
        simp only [h1, h2, Bool.false_eq_true, if_false]
      obtain ⟨hd, hc, hh⟩ := decodeKey_no_pattern s.data
      rw [hs]
      exact clean_key_else_fixed (decodeKey s.data) h1 h2 hd hc hh
